import Mathlib

/-!
Verification of the Go rules engine and self-play driver of pachi-py.

The repository exposes (through its tests and example driver) an immutable
Go board with legal-move enumeration, capture, suicide/ko rejection and
area scoring, plus a game-loop driver that alternates two policies.  The
native board engine itself is not part of the visible sources, so the board
and driver operations below are modelled from the specification; the
winner-declaration logic and the random-board construction are translated
from the visible python sources (tests/play.py and tests/test_smoke.py).
-/

namespace PachiPy

/-- Color of a stone: exactly two values. -/
inductive Color where
  | black
  | white
deriving DecidableEq

/-- Modelled from the spec: the total, involutive other-color operation
(`stone_other` in the pachi_py interface, absent from the visible sources). -/
def stone_other : Color → Color
  | .black => .white
  | .white => .black

/-- A coordinate: a linear index over the N by N grid, or the PASS sentinel. -/
inductive Coord where
  | pass
  | pos (i : Nat)
deriving DecidableEq

/-- Reasons a move can be rejected; together they model the IllegalMove error. -/
inductive IllegalMove where
  | occupied
  | suicide
  | koViolation
  | outOfRange
deriving DecidableEq

/-- Error raised by CreateBoard for an unsupported size. -/
inductive InvalidSize where
  | invalidSize
deriving DecidableEq

/-- Modelled from the spec: a board value.  `stones` maps each linear index to
EMPTY (`none`) or a stone; `prevPos` keeps the stone configuration of the
parent position, enough history to enforce the simple ko rule. -/
structure Board where
  size : Nat
  stones : List (Option Color)
  prevPos : Option (List (Option Color))
deriving DecidableEq

/-- Read a cell of a stone list; out-of-range reads are EMPTY. -/
def getS : List (Option Color) → Nat → Option Color
  | [], _ => none
  | v :: _, 0 => v
  | _ :: s, i + 1 => getS s i

/-- Orthogonal neighbors of linear index i on an n by n grid. -/
def neighbors (n i : Nat) : List Nat :=
  (if n ≤ i then [i - n] else []) ++
  (if i + n < n * n then [i + n] else []) ++
  (if i % n = 0 then [] else [i - 1]) ++
  (if (i + 1) % n = 0 then [] else [i + 1])

/-- Worklist flood fill over points satisfying p, 4-connectivity, bounded fuel. -/
def flood (n : Nat) (p : Nat → Bool) : Nat → List Nat → List Nat → List Nat
  | 0, visited, _ => visited
  | _ + 1, visited, [] => visited
  | fuel + 1, visited, x :: work =>
    if x ∈ visited then flood n p fuel visited work
    else flood n p fuel (x :: visited) ((neighbors n x).filter p ++ work)

/-- The group (maximal 4-connected same-color set) containing index i. -/
def groupAt (n : Nat) (s : List (Option Color)) (c : Color) (i : Nat) : List Nat :=
  flood n (fun k => decide (getS s k = some c)) (4 * n * n + 1) [] [i]

/-- Does the point set g have at least one liberty (adjacent empty point)? -/
def hasLiberty (n : Nat) (s : List (Option Color)) (g : List Nat) : Bool :=
  g.any (fun q => (neighbors n q).any (fun j => decide (getS s j = none)))

/-- Modelled from the spec: if the point j holds an `oc` stone whose group has
no liberty, remove the whole group (capture); otherwise leave s unchanged. -/
def captureAt (n : Nat) (s : List (Option Color)) (oc : Color) (j : Nat) :
    List (Option Color) :=
  if getS s j = some oc then
    if hasLiberty n s (groupAt n s oc j) then s
    else (groupAt n s oc j).foldl (fun s2 k => s2.set k none) s
  else s

/-- Place a c stone at i, then capture each adjacent opposing group with zero
liberties. -/
def placeStones (b : Board) (i : Nat) (c : Color) : List (Option Color) :=
  (neighbors b.size i).foldl (fun s j => captureAt b.size s (stone_other c) j)
    (b.stones.set i (some c))

/-- Modelled from the spec: attempt to play a stone of color c at linear index
i: reject occupied points, place and capture, reject suicide (checked after
captures), reject the simple-ko repetition of the parent position. -/
def tryPlace (b : Board) (i : Nat) (c : Color) : Except IllegalMove Board :=
  if i < b.size * b.size then
    match getS b.stones i with
    | some _ => .error .occupied
    | none =>
      if hasLiberty b.size (placeStones b i c) (groupAt b.size (placeStones b i c) c i) then
        if b.prevPos = some (placeStones b i c) then .error .koViolation
        else .ok ⟨b.size, placeStones b i c, some b.stones⟩
      else .error .suicide
  else .error .outOfRange

/-- Modelled from the spec: play a move.  PASS is always accepted and returns
a board identical in stones that advances the implicit history; a point move
goes through tryPlace.  The receiver is never altered: a new Board is built. -/
def Board.play (b : Board) (x : Coord) (c : Color) : Except IllegalMove Board :=
  match x with
  | .pass => .ok ⟨b.size, b.stones, some b.stones⟩
  | .pos i => tryPlace b i c

/-- Does playing color c at linear index i succeed on board b? -/
def playable (b : Board) (c : Color) (i : Nat) : Bool :=
  match tryPlace b i c with
  | .ok _ => true
  | .error _ => false

/-- Modelled from the spec: every coordinate where playing color c succeeds,
plus PASS, which is always legal. -/
def Board.legal_coords (b : Board) (c : Color) : List Coord :=
  Coord.pass :: ((List.range (b.size * b.size)).filter (playable b c)).map Coord.pos

/-- The empty board of a given size. -/
def emptyBoard (n : Nat) : Board :=
  ⟨n, List.replicate (n * n) none, none⟩

/-- Modelled from the spec: CreateBoard fails with InvalidSize outside the
supported range 1..25 and otherwise returns the empty board. -/
def CreateBoard (n : Nat) : Except InvalidSize Board :=
  if 1 ≤ n ∧ n ≤ 25 then .ok (emptyBoard n) else .error .invalidSize

/-- Indexing a board by (row, col), as in b[row, col]. -/
def boardGet (b : Board) (r c : Nat) : Option Color :=
  getS b.stones (r * b.size + c)

/-- The (row, col) pairs holding black stones. -/
def Board.black_stones (b : Board) : List (Nat × Nat) :=
  ((List.range (b.size * b.size)).filter
    (fun i => decide (getS b.stones i = some Color.black))).map
    (fun i => (i / b.size, i % b.size))

/-- The (row, col) pairs holding white stones. -/
def Board.white_stones (b : Board) : List (Nat × Nat) :=
  ((List.range (b.size * b.size)).filter
    (fun i => decide (getS b.stones i = some Color.white))).map
    (fun i => (i / b.size, i % b.size))

/-- The maximal 4-connected empty region containing index i. -/
def emptyRegion (b : Board) (i : Nat) : List Nat :=
  flood b.size (fun j => decide (getS b.stones j = none)) (4 * b.size * b.size + 1) [] [i]

/-- Does the region touch a stone of color c? -/
def regionTouches (b : Board) (reg : List Nat) (c : Color) : Bool :=
  reg.any (fun q => (neighbors b.size q).any (fun j => decide (getS b.stones j = some c)))

/-- Modelled from the spec: the area-scoring contribution of one point: +1 for
a white stone or empty territory bordering only white, -1 for the black
counterparts, 0 otherwise. -/
def pointScore (b : Board) (i : Nat) : Int :=
  match getS b.stones i with
  | some .white => 1
  | some .black => -1
  | none =>
    match regionTouches b (emptyRegion b i) .white,
          regionTouches b (emptyRegion b i) .black with
    | true, false => 1
    | false, true => -1
    | _, _ => 0

/-- Modelled from the spec: area scoring, White total minus Black total;
positive favors White. -/
def Board.official_score (b : Board) : Int :=
  ((List.range (b.size * b.size)).map (pointScore b)).sum

/-- The winner as the example driver script declares it (tests/play.py): the
message printed is chosen by the condition score greater than zero, with no
third outcome. -/
inductive Winner where
  | white
  | black
deriving DecidableEq

/-- Translated from tests/play.py: White wins if score is positive, otherwise
Black wins is printed. -/
def declareWinner (score : Int) : Winner :=
  if 0 < score then .white else .black

/-- The state object handed to a policy by the driver: per tests/play.py a
policy reads both curr_state.board and curr_state.color from it. -/
structure GameState where
  board : Board
  color : Color
deriving DecidableEq

/-- Modelled from the spec: a policy maps (current state, previous state,
previous action) to the chosen coordinate. -/
abbrev Policy : Type :=
  GameState → Option GameState → Option Coord → Coord

/-- A move record: (action, state before, state after), as accumulated by the
driver; tests/play.py reads moves[-1][2].board. -/
abbrev MoveRec : Type :=
  Coord × GameState × GameState

/-- Errors the driver can surface: its own defensive PolicyFault check, kept
distinct from a genuine IllegalMove of the rules engine. -/
inductive DriverError where
  | policyFault (a : Coord)
  | illegalMove (a : Coord)
deriving DecidableEq

/-- The policy owning the current turn. -/
def activePolicy (pB pW : Policy) : Color → Policy
  | .black => pB
  | .white => pW

/-- Modelled from the spec: the driver loop.  Each step invokes the active
policy on the current state, rejects a coordinate outside the legal set as a
PolicyFault, applies the move, records (action, state before, state after),
flips the color and tracks consecutive passes; two consecutive passes or an
exhausted move budget finish the game. -/
def driverLoop (pB pW : Policy) :
    Nat → GameState → Nat → Option GameState → Option Coord → List MoveRec →
    Except DriverError (List MoveRec × Board)
  | 0, st, _, _, _, hist => .ok (hist.reverse, st.board)
  | fuel + 1, st, passes, pS, pA, hist =>
    if 2 ≤ passes then .ok (hist.reverse, st.board)
    else
      if activePolicy pB pW st.color st pS pA ∈ st.board.legal_coords st.color then
        match st.board.play (activePolicy pB pW st.color st pS pA) st.color with
        | .ok b2 =>
          driverLoop pB pW fuel ⟨b2, stone_other st.color⟩
            (if activePolicy pB pW st.color st pS pA = .pass then passes + 1 else 0)
            (some st) (some (activePolicy pB pW st.color st pS pA))
            ((activePolicy pB pW st.color st pS pA, st, ⟨b2, stone_other st.color⟩) :: hist)
        | .error _ => .error (.illegalMove (activePolicy pB pW st.color st pS pA))
      else .error (.policyFault (activePolicy pB pW st.color st pS pA))

/-- Modelled from the spec: the configured maximum move count of a game. -/
def maxGameMoves (size : Nat) : Nat :=
  4 * size * size

/-- Run one full game: empty board of the given size, Black to move, zero
consecutive passes; returns the full history and the final board. -/
def playGame (pB pW : Policy) (size : Nat) : Except DriverError (List MoveRec × Board) :=
  driverLoop pB pW (maxGameMoves size) ⟨emptyBoard size, .black⟩ 0 none none []

/-- The public driver entry point: play(policy_black, policy_white, board_size)
returning the ordered sequence of move records. -/
def play (pB pW : Policy) (size : Nat) : Except DriverError (List MoveRec) :=
  (playGame pB pW size).map (fun out => out.1)

/-- Modelled from the spec: the random policy selects an element of the legal
coordinate list, the selection index being supplied by a pick function. -/
def random_policy (pick : GameState → Nat) : Policy := fun cur _ _ =>
  (cur.board.legal_coords cur.color).get
    ⟨pick cur % (cur.board.legal_coords cur.color).length,
     Nat.mod_lt _ (by simp [Board.legal_coords])⟩

/-- The policy that always passes; used to exercise the driver on tiny games. -/
def passPolicy : Policy := fun _ _ _ => Coord.pass

/-- Records both observations of the receiver of a play call and the call
result, modelling that the receiver is left untouched by the call. -/
def callPlay (b : Board) (x : Coord) (c : Color) : Board × Except IllegalMove Board :=
  (b, b.play x c)

/-- Translated from tests/test_smoke.py make_random_board: starting from
CreateBoard(size), fifty times play a stone chosen from the legal coordinates
of the color to move (the choice index supplied by f), then flip the color. -/
def make_random_board (f : Nat → Nat) (size : Nat) : Board :=
  ((List.range 50).foldl
    (fun (bc : Board × Color) k =>
      match bc.1.play ((bc.1.legal_coords bc.2).getD (f k % (bc.1.legal_coords bc.2).length) .pass) bc.2 with
      | .ok b2 => (b2, stone_other bc.2)
      | .error _ => (bc.1, stone_other bc.2))
    (emptyBoard size, .black)).1

/-! Basic lemmas about cells, neighbors and flood fill. -/

lemma getS_replicate (m i : Nat) : getS (List.replicate m (none : Option Color)) i = none := by
  induction m generalizing i with
  | zero => rfl
  | succ m ih =>
    cases i with
    | zero => rfl
    | succ i => rw [List.replicate_succ]; exact ih i

lemma getS_set_self : ∀ (s : List (Option Color)) (i : Nat) (v : Option Color),
    i < s.length → getS (s.set i v) i = v := by
  intro s
  induction s with
  | nil => intro i v h; simp at h
  | cons a t ih =>
    intro i v h
    cases i with
    | zero => rfl
    | succ i => exact ih i v (by simpa using h)

lemma getS_set_ne : ∀ (s : List (Option Color)) (i j : Nat) (v : Option Color),
    i ≠ j → getS (s.set i v) j = getS s j := by
  intro s
  induction s with
  | nil => intro i j v _; rfl
  | cons a t ih =>
    intro i j v hij
    cases i with
    | zero =>
      cases j with
      | zero => exact absurd rfl hij
      | succ j => rfl
    | succ i =>
      cases j with
      | zero => rfl
      | succ j => exact ih i j v (fun hh => hij (by rw [hh]))

lemma mem_neighbors {n i j : Nat} (h : j ∈ neighbors n i) :
    (n ≤ i ∧ j = i - n) ∨ (i + n < n * n ∧ j = i + n) ∨
    (¬ i % n = 0 ∧ j = i - 1) ∨ (¬ (i + 1) % n = 0 ∧ j = i + 1) := by
  unfold neighbors at h
  split_ifs at h <;> simp_all <;> tauto

lemma mem_neighbors_ne {n i j : Nat} (hn : 1 ≤ n) (h : j ∈ neighbors n i) : j ≠ i := by
  rcases mem_neighbors h with ⟨h1, rfl⟩ | ⟨h1, rfl⟩ | ⟨h1, rfl⟩ | ⟨h1, rfl⟩
  · omega
  · omega
  · rcases Nat.eq_zero_or_pos i with rfl | hpos
    · exact absurd (Nat.zero_mod n) h1
    · omega
  · omega

lemma foldl_fixed {α β : Type _} (f : α → β → α) :
    ∀ (l : List β) (s : α), (∀ j ∈ l, f s j = s) → l.foldl f s = s := by
  intro l
  induction l with
  | nil => intro s _; rfl
  | cons j t ih =>
    intro s h
    rw [List.foldl_cons, h j (List.mem_cons_self j t)]
    exact ih s (fun k hk => h k (List.mem_cons_of_mem j hk))

lemma flood_singleton (n : Nat) (p : Nat → Bool) (i m : Nat)
    (h : ∀ j ∈ neighbors n i, p j = false) :
    flood n p (m + 1) [] [i] = [i] := by
  have hf : (neighbors n i).filter p = [] :=
    List.filter_eq_nil_iff.mpr (by intro a ha; simp [h a ha])
  have key : ∀ m2 : Nat, flood n p m2 [i] [] = [i] := by
    intro m2; cases m2 <;> rfl
  simp only [flood]
  rw [if_neg (List.not_mem_nil i), hf]
  exact key m

/-! Playing on an empty board. -/

lemma placeStones_empty (n i : Nat) (hn : 1 ≤ n) (c : Color) :
    placeStones (emptyBoard n) i c =
      (List.replicate (n * n) (none : Option Color)).set i (some c) := by
  unfold placeStones
  show (neighbors n i).foldl _ ((List.replicate (n * n) none).set i (some c)) = _
  apply foldl_fixed
  intro j hj
  have hji : j ≠ i := mem_neighbors_ne hn hj
  unfold captureAt
  rw [if_neg]
  rw [getS_set_ne _ _ _ _ (fun hh => hji hh.symm), getS_replicate]
  simp

lemma groupAt_empty (n i : Nat) (hn : 1 ≤ n) (c : Color) :
    groupAt n ((List.replicate (n * n) (none : Option Color)).set i (some c)) c i = [i] := by
  unfold groupAt
  apply flood_singleton
  intro j hj
  have hji : j ≠ i := mem_neighbors_ne hn hj
  rw [getS_set_ne _ _ _ _ (fun hh => hji hh.symm), getS_replicate]
  simp

lemma hasLiberty_single_empty (n i : Nat) (h2 : 2 ≤ n) (_hi : i < n * n) (c : Color) :
    hasLiberty n ((List.replicate (n * n) (none : Option Color)).set i (some c)) [i] = true := by
  unfold hasLiberty
  simp only [List.any_cons, List.any_nil, Bool.or_false]
  rw [List.any_eq_true]
  by_cases hni : n ≤ i
  · refine ⟨i - n, ?_, ?_⟩
    · unfold neighbors; rw [if_pos hni]; simp
    · have hne : i - n ≠ i := by omega
      rw [getS_set_ne _ _ _ _ (fun hh => hne hh.symm), getS_replicate]
      simp
  · have hd : i + n < n * n := by
      have h2n : 2 * n ≤ n * n := Nat.mul_le_mul_right n h2
      omega
    refine ⟨i + n, ?_, ?_⟩
    · unfold neighbors; rw [if_neg hni, if_pos hd]; simp
    · have hne : i + n ≠ i := by omega
      rw [getS_set_ne _ _ _ _ (fun hh => hne hh.symm), getS_replicate]
      simp

lemma tryPlace_empty_ok (n i : Nat) (c : Color) (h2 : 2 ≤ n) (hi : i < n * n) :
    tryPlace (emptyBoard n) i c =
      .ok ⟨n, (List.replicate (n * n) (none : Option Color)).set i (some c),
           some (List.replicate (n * n) none)⟩ := by
  have hn : 1 ≤ n := by omega
  unfold tryPlace
  rw [placeStones_empty n i hn c]
  show (if i < n * n then _ else _) = _
  rw [if_pos hi]
  simp only [emptyBoard]
  rw [getS_replicate, groupAt_empty n i hn c, hasLiberty_single_empty n i h2 hi c]
  simp

/-! Legality of a move as membership in the legal coordinate set. -/

lemma playable_iff (b : Board) (c : Color) (i : Nat) :
    playable b c i = true ↔ ∃ b2, tryPlace b i c = .ok b2 := by
  unfold playable
  cases h : tryPlace b i c <;> simp

lemma tryPlace_oob (b : Board) (i : Nat) (c : Color) (h : ¬ i < b.size * b.size) :
    tryPlace b i c = .error .outOfRange := by
  unfold tryPlace
  rw [if_neg h]

lemma play_ok_iff (b : Board) (x : Coord) (c : Color) :
    (∃ b2, b.play x c = .ok b2) ↔ x ∈ b.legal_coords c := by
  cases x with
  | pass => simp [Board.play, Board.legal_coords]
  | pos i =>
    have hplay : b.play (Coord.pos i) c = tryPlace b i c := rfl
    rw [hplay]
    unfold Board.legal_coords
    constructor
    · rintro ⟨b2, hb2⟩
      have hrange : i < b.size * b.size := by
        by_contra hc
        rw [tryPlace_oob b i c hc] at hb2
        exact Except.noConfusion hb2
      refine List.mem_cons_of_mem _ ?_
      rw [List.mem_map]
      refine ⟨i, ?_, rfl⟩
      rw [List.mem_filter]
      exact ⟨List.mem_range.mpr hrange, (playable_iff b c i).mpr ⟨b2, hb2⟩⟩
    · intro hmem
      rcases List.mem_cons.mp hmem with h | h
      · exact absurd h (by simp)
      · rcases List.mem_map.mp h with ⟨i2, hi2, heq⟩
        have hii : i2 = i := by simpa using heq
        subst hii
        exact (playable_iff b c i2).mp (List.mem_filter.mp hi2).2

lemma play_pass (b : Board) (c : Color) :
    b.play .pass c = .ok ⟨b.size, b.stones, some b.stones⟩ := rfl

lemma legal_length_pos (b : Board) (c : Color) : 0 < (b.legal_coords c).length := by
  simp [Board.legal_coords]

lemma legal_coords_empty_length (n : Nat) (c : Color) (h2 : 2 ≤ n) :
    ((emptyBoard n).legal_coords c).length = n * n + 1 := by
  unfold Board.legal_coords
  have hsz : (emptyBoard n).size = n := rfl
  rw [hsz]
  have hall : ∀ i ∈ List.range (n * n), playable (emptyBoard n) c i = true := by
    intro i hi
    rw [(playable_iff (emptyBoard n) c i).mpr
      ⟨_, tryPlace_empty_ok n i c h2 (List.mem_range.mp hi)⟩]
  rw [List.filter_eq_self.mpr hall]
  simp

/-! The score of any board is bounded by the point count. -/

lemma pointScore_abs_le (b : Board) (i : Nat) : (pointScore b i).natAbs ≤ 1 := by
  unfold pointScore
  rcases getS b.stones i with _ | c
  · rcases regionTouches b (emptyRegion b i) .white <;>
      rcases regionTouches b (emptyRegion b i) .black <;> simp
  · cases c <;> simp

lemma sum_abs_le (g : Nat → Int) (hg : ∀ i, (g i).natAbs ≤ 1) :
    ∀ l : List Nat, ((l.map g).sum).natAbs ≤ l.length := by
  intro l
  induction l with
  | nil => simp
  | cons a t ih =>
    rw [List.map_cons, List.sum_cons, List.length_cons]
    calc (g a + (t.map g).sum).natAbs
        ≤ (g a).natAbs + ((t.map g).sum).natAbs := Int.natAbs_add_le _ _
      _ ≤ 1 + t.length := Nat.add_le_add (hg a) ih
      _ = t.length + 1 := Nat.add_comm 1 t.length

lemma official_score_abs_le (b : Board) : b.official_score.natAbs ≤ b.size * b.size := by
  unfold Board.official_score
  have := sum_abs_le (pointScore b) (pointScore_abs_le b) (List.range (b.size * b.size))
  simpa using this

/-! Driver lemmas. -/

lemma play_size {b b2 : Board} {x : Coord} {c : Color} (h : b.play x c = .ok b2) :
    b2.size = b.size := by
  cases x with
  | pass =>
    rw [play_pass] at h
    cases h
    rfl
  | pos i =>
    have hp : b.play (.pos i) c = tryPlace b i c := rfl
    rw [hp] at h
    unfold tryPlace at h
    split at h
    · split at h
      · exact absurd h (by simp)
      · split at h
        · split at h
          · exact absurd h (by simp)
          · cases h; rfl
        · exact absurd h (by simp)
    · exact absurd h (by simp)

/-- Each recorded action was produced by invoking the active policy of the
color to move on the recorded state-before, and the state-after flips the
color; this is the per-record contract of the driver. -/
def recPolicyOk (pB pW : Policy) (r : MoveRec) : Prop :=
  (∃ pS pA, r.1 = activePolicy pB pW r.2.1.color r.2.1 pS pA) ∧
  r.2.2.color = stone_other r.2.1.color

/-- Consecutive move records chain: the state-before of each record is the
state-after of the preceding one. -/
def chainedRecs (l : List MoveRec) : Prop :=
  List.Chain' (fun r1 r2 => r2.2.1 = r1.2.2) l

lemma driverLoop_spec (pB pW : Policy) :
    ∀ (fuel : Nat) (st : GameState) (passes : Nat) (pS : Option GameState)
      (pA : Option Coord) (hist recs : List MoveRec) (fb : Board),
      driverLoop pB pW fuel st passes pS pA hist = .ok (recs, fb) →
      List.Chain' (fun r2 r1 => r2.2.1 = r1.2.2) hist →
      (∀ r ∈ hist.head?, r.2.2 = st) →
      (∀ r ∈ hist, recPolicyOk pB pW r) →
      ∃ tail : List MoveRec,
        recs = hist.reverse ++ tail ∧
        (tail = [] → fb = st.board) ∧
        (∀ r ∈ tail.head?, r.2.1 = st) ∧
        (tail ≠ [] → ∃ r, recs.getLast? = some r ∧ r.2.2.board = fb) ∧
        (1 ≤ fuel → passes < 2 → tail ≠ []) ∧
        chainedRecs recs ∧
        (∀ r ∈ recs, recPolicyOk pB pW r) := by
  intro fuel
  induction fuel with
  | zero =>
    intro st passes pS pA hist recs fb hok hch hhd hpol
    have hpair : hist.reverse = recs ∧ st.board = fb := by
      simp only [driverLoop] at hok
      simpa using hok
    obtain ⟨hr, hf⟩ := hpair
    subst hr
    subst hf
    refine ⟨[], by simp, fun _ => rfl, by simp, fun hne => absurd rfl hne, ?_, ?_, ?_⟩
    · intro hf1
      omega
    · exact List.chain'_reverse.mpr hch
    · intro r hr
      exact hpol r (List.mem_reverse.mp hr)
  | succ m ih =>
    intro st passes pS pA hist recs fb hok hch hhd hpol
    simp only [driverLoop] at hok
    by_cases hp : 2 ≤ passes
    · rw [if_pos hp] at hok
      have hpair : hist.reverse = recs ∧ st.board = fb := by simpa using hok
      obtain ⟨hr, hf⟩ := hpair
      subst hr
      subst hf
      refine ⟨[], by simp, fun _ => rfl, by simp, fun hne => absurd rfl hne, ?_, ?_, ?_⟩
      · intro _ hlt
        omega
      · exact List.chain'_reverse.mpr hch
      · intro r hr
        exact hpol r (List.mem_reverse.mp hr)
    · rw [if_neg hp] at hok
      by_cases hmem : activePolicy pB pW st.color st pS pA ∈ st.board.legal_coords st.color
      · rw [if_pos hmem] at hok
        cases hplay : st.board.play (activePolicy pB pW st.color st pS pA) st.color with
        | error e =>
          rw [hplay] at hok
          exact absurd hok (by simp)
        | ok b2 =>
          rw [hplay] at hok
          have hok2 : driverLoop pB pW m ⟨b2, stone_other st.color⟩
              (if activePolicy pB pW st.color st pS pA = Coord.pass then passes + 1 else 0)
              (some st) (some (activePolicy pB pW st.color st pS pA))
              ((activePolicy pB pW st.color st pS pA, st, ⟨b2, stone_other st.color⟩) :: hist)
              = Except.ok (recs, fb) := hok
          obtain ⟨tail, htl, h2, _h3, h4, _h5, h6, h7⟩ :=
            ih ⟨b2, stone_other st.color⟩
              (if activePolicy pB pW st.color st pS pA = .pass then passes + 1 else 0)
              (some st) (some (activePolicy pB pW st.color st pS pA))
              ((activePolicy pB pW st.color st pS pA, st, ⟨b2, stone_other st.color⟩) :: hist)
              recs fb hok2
              (List.chain'_cons'.mpr ⟨fun y hy => (hhd y hy).symm, hch⟩)
              (by intro r hr; simp only [List.head?_cons, Option.mem_def, Option.some.injEq] at hr; subst hr; rfl)
              (by
                intro r hr
                rcases List.mem_cons.mp hr with rfl | hr2
                · exact ⟨⟨pS, pA, rfl⟩, rfl⟩
                · exact hpol r hr2)
          have htl2 : recs = hist.reverse ++
              ((activePolicy pB pW st.color st pS pA, st, ⟨b2, stone_other st.color⟩) :: tail) := by
            rw [htl, List.reverse_cons, List.append_assoc, List.singleton_append]
          refine ⟨(activePolicy pB pW st.color st pS pA, st, ⟨b2, stone_other st.color⟩) :: tail,
            htl2, fun hne => absurd hne (by simp), ?_, ?_, fun _ _ => by simp, h6, h7⟩
          · intro r hr
            simp only [List.head?_cons, Option.mem_def, Option.some.injEq] at hr
            subst hr
            rfl
          · intro _
            by_cases htail : tail = []
            · subst htail
              refine ⟨(activePolicy pB pW st.color st pS pA, st, ⟨b2, stone_other st.color⟩), ?_, ?_⟩
              · rw [htl2]
                exact List.getLast?_concat _
              · exact (h2 rfl).symm ▸ rfl
            · exact h4 htail
      · rw [if_neg hmem] at hok
        exact absurd hok (by simp)

lemma playGame_spec (pB pW : Policy) (size : Nat) (recs : List MoveRec) (fb : Board)
    (h1 : 1 ≤ size) (hok : playGame pB pW size = .ok (recs, fb)) :
    recs ≠ [] ∧ chainedRecs recs ∧
    (∀ r ∈ recs.head?, r.2.1 = (⟨emptyBoard size, .black⟩ : GameState)) ∧
    (∃ r, recs.getLast? = some r ∧ r.2.2.board = fb) ∧
    (∀ r ∈ recs, recPolicyOk pB pW r) := by
  unfold playGame at hok
  obtain ⟨tail, htl, _h2, h3, h4, h5, h6, h7⟩ :=
    driverLoop_spec pB pW (maxGameMoves size) ⟨emptyBoard size, .black⟩ 0 none none []
      recs fb hok (by simp) (by simp) (by simp)
  have hfuel : 1 ≤ maxGameMoves size := by
    unfold maxGameMoves
    have hs : 0 < size := h1
    have := Nat.mul_pos (Nat.mul_pos (by omega : 0 < 4) hs) hs
    omega
  have hne : tail ≠ [] := h5 hfuel (by omega)
  have hrt : recs = tail := by simpa using htl
  subst hrt
  exact ⟨hne, h6, h3, h4 hne, h7⟩

lemma driverLoop_size (pB pW : Policy) :
    ∀ (fuel : Nat) (st : GameState) (passes : Nat) (pS : Option GameState)
      (pA : Option Coord) (hist : List MoveRec) (recs : List MoveRec) (fb : Board),
      driverLoop pB pW fuel st passes pS pA hist = .ok (recs, fb) →
      fb.size = st.board.size := by
  intro fuel
  induction fuel with
  | zero =>
    intro st passes pS pA hist recs fb hok
    have hpair : hist.reverse = recs ∧ st.board = fb := by
      simp only [driverLoop] at hok
      simpa using hok
    rw [← hpair.2]
  | succ m ih =>
    intro st passes pS pA hist recs fb hok
    simp only [driverLoop] at hok
    by_cases hp : 2 ≤ passes
    · rw [if_pos hp] at hok
      have hpair : hist.reverse = recs ∧ st.board = fb := by simpa using hok
      rw [← hpair.2]
    · rw [if_neg hp] at hok
      by_cases hmem : activePolicy pB pW st.color st pS pA ∈ st.board.legal_coords st.color
      · rw [if_pos hmem] at hok
        cases hplay : st.board.play (activePolicy pB pW st.color st pS pA) st.color with
        | error e =>
          rw [hplay] at hok
          exact absurd hok (by simp)
        | ok b2 =>
          rw [hplay] at hok
          have hok2 : driverLoop pB pW m ⟨b2, stone_other st.color⟩
              (if activePolicy pB pW st.color st pS pA = Coord.pass then passes + 1 else 0)
              (some st) (some (activePolicy pB pW st.color st pS pA))
              ((activePolicy pB pW st.color st pS pA, st, ⟨b2, stone_other st.color⟩) :: hist)
              = Except.ok (recs, fb) := hok
          have hsz := ih _ _ _ _ _ _ _ hok2
          rw [hsz]
          exact play_size hplay
      · rw [if_neg hmem] at hok
        exact absurd hok (by simp)

lemma driverLoop_no_err (pB pW : Policy)
    (hB : ∀ st pS pA, pB st pS pA ∈ st.board.legal_coords st.color)
    (hW : ∀ st pS pA, pW st pS pA ∈ st.board.legal_coords st.color) :
    ∀ (fuel : Nat) (st : GameState) (passes : Nat) (pS : Option GameState)
      (pA : Option Coord) (hist : List MoveRec),
      ∃ recs fb, driverLoop pB pW fuel st passes pS pA hist = .ok (recs, fb) := by
  intro fuel
  induction fuel with
  | zero =>
    intro st passes pS pA hist
    exact ⟨hist.reverse, st.board, rfl⟩
  | succ m ih =>
    intro st passes pS pA hist
    by_cases hp : 2 ≤ passes
    · refine ⟨hist.reverse, st.board, ?_⟩
      simp only [driverLoop]
      rw [if_pos hp]
    · have hmem : activePolicy pB pW st.color st pS pA ∈ st.board.legal_coords st.color := by
        cases hcol : st.color with
        | black =>
          have := hB st pS pA
          rw [hcol] at this
          exact this
        | white =>
          have := hW st pS pA
          rw [hcol] at this
          exact this
      obtain ⟨b2, hb2⟩ :=
        (play_ok_iff st.board (activePolicy pB pW st.color st pS pA) st.color).mpr hmem
      obtain ⟨recs, fb, hrec⟩ :=
        ih ⟨b2, stone_other st.color⟩
          (if activePolicy pB pW st.color st pS pA = Coord.pass then passes + 1 else 0)
          (some st) (some (activePolicy pB pW st.color st pS pA))
          ((activePolicy pB pW st.color st pS pA, st, ⟨b2, stone_other st.color⟩) :: hist)
      refine ⟨recs, fb, ?_⟩
      simp only [driverLoop]
      rw [if_neg hp, if_pos hmem, hb2]
      exact hrec

lemma random_policy_legal (pick : GameState → Nat) :
    ∀ (st : GameState) (pS : Option GameState) (pA : Option Coord),
      random_policy pick st pS pA ∈ st.board.legal_coords st.color := by
  intro st pS pA
  exact List.get_mem _ _ _

/-! Claim theorems. -/

/-- C9: stone_other is a total involution on the two colors, mapping each
color to the other one. -/
theorem stone_other_involutive :
    (∀ c : Color, stone_other (stone_other c) = c) ∧
    stone_other .black = .white ∧ stone_other .white = .black := by
  refine ⟨?_, rfl, rfl⟩
  intro c
  cases c <;> rfl

/-- C1 counterexample: a final board whose official score is zero is declared
a Black win by the driver script (tests/play.py prints the winner with the
two-way condition score greater than zero), not a draw; the Winner type of
the script has no draw value at all. -/
theorem score_zero_declared_black_win :
    (emptyBoard 2).official_score = 0 ∧
    declareWinner (emptyBoard 2).official_score = Winner.black ∧
    (∀ w : Winner, w = .white ∨ w = .black) := by
  refine ⟨by decide, by decide, ?_⟩
  intro w
  cases w
  · exact Or.inl rfl
  · exact Or.inr rfl

/-- C1 amended: the declared winner is White exactly when the official score
of the final board is positive and Black otherwise; a zero score is declared
a Black win, and no draw outcome exists. -/
theorem declareWinner_sign (b : Board) :
    (declareWinner b.official_score = .white ↔ 0 < b.official_score) ∧
    (declareWinner b.official_score = .black ↔ b.official_score ≤ 0) := by
  unfold declareWinner
  split_ifs with h
  · refine ⟨⟨fun _ => h, fun _ => rfl⟩, ⟨fun hw => ?_, fun _ => absurd h (by omega)⟩⟩
    exact absurd hw (by decide)
  · refine ⟨⟨fun hw => ?_, fun hlt => absurd hlt h⟩, ⟨fun _ => by omega, fun _ => rfl⟩⟩
    exact absurd hw (by decide)

/-- C2: play fails exactly on the coordinates outside the legal set of the
color; PASS is always accepted and returns a board with identical stones;
and on the empty 9x9 board playing linear coordinate 14 as White and then 14
again as Black on the result is rejected as occupied. -/
theorem play_illegal_iff :
    (∀ (b : Board) (x : Coord) (c : Color),
        (∃ e, b.play x c = .error e) ↔ x ∉ b.legal_coords c) ∧
    (∀ (b : Board) (c : Color), b.play .pass c = .ok ⟨b.size, b.stones, some b.stones⟩) ∧
    ((emptyBoard 9).play (.pos 14) .white =
        .ok ⟨9, (List.replicate 81 (none : Option Color)).set 14 (some .white),
             some (List.replicate 81 none)⟩ ∧
      (Board.mk 9 ((List.replicate 81 (none : Option Color)).set 14 (some .white))
          (some (List.replicate 81 none))).play (.pos 14) .black = .error .occupied) := by
  refine ⟨?_, fun b c => play_pass b c, ?_, ?_⟩
  · intro b x c
    rw [← play_ok_iff]
    constructor
    · rintro ⟨e, he⟩ ⟨b2, hb2⟩
      rw [he] at hb2
      exact Except.noConfusion hb2
    · intro hno
      cases hres : b.play x c with
      | ok b2 => exact absurd ⟨b2, hres⟩ hno
      | error e => exact ⟨e, rfl⟩
  · rfl
  · rfl

/-- C3 counterexample: size 1 lies in the supported range 1..25, yet the
empty 1x1 board has exactly one legal coordinate (PASS alone, the single
point being suicide), not 1*1+1 = 2 of them, for either color. -/
theorem legal_count_size_one :
    CreateBoard 1 = .ok (emptyBoard 1) ∧
    ((emptyBoard 1).legal_coords .black).length = 1 ∧
    ((emptyBoard 1).legal_coords .white).length = 1 ∧ (1 : Nat) ≠ 1 * 1 + 1 :=
  ⟨rfl, rfl, rfl, by omega⟩

/-- C3 amended: for every supported size of at least 2 and either color, the
freshly created empty board has exactly size*size + 1 legal coordinates (all
points plus PASS); on the 1x1 board only PASS is legal. -/
theorem legal_count_fresh (n : Nat) (c : Color) (h2 : 2 ≤ n) (h25 : n ≤ 25) :
    CreateBoard n = .ok (emptyBoard n) ∧
    ((emptyBoard n).legal_coords c).length = n * n + 1 := by
  refine ⟨?_, legal_coords_empty_length n c h2⟩
  unfold CreateBoard
  rw [if_pos ⟨by omega, h25⟩]

/-- Witness for legal_count_fresh at the concrete size 9 and color Black. -/
theorem legal_count_fresh_witness :
    (2 : Nat) ≤ 9 ∧ (9 : Nat) ≤ 25 ∧
    (CreateBoard 9 = .ok (emptyBoard 9) ∧
      ((emptyBoard 9).legal_coords .black).length = 9 * 9 + 1) :=
  ⟨by omega, by omega, legal_count_fresh 9 .black (by omega) (by omega)⟩

/-- C6: a play call leaves its receiver untouched: the receiver observed
after the call is the very board that was passed in, so its legal coordinate
sets and stone contents are unchanged, and the result of the call is a
separate value derived from it. -/
theorem play_frame (b : Board) (x : Coord) (c : Color) (col : Color) :
    (callPlay b x c).1 = b ∧
    (callPlay b x c).1.legal_coords col = b.legal_coords col ∧
    (callPlay b x c).1.stones = b.stones ∧
    (callPlay b x c).1.black_stones = b.black_stones ∧
    (callPlay b x c).1.white_stones = b.white_stones ∧
    (callPlay b x c).2 = b.play x c :=
  ⟨rfl, rfl, rfl, rfl, rfl, rfl⟩

/-- Every coordinate pair listed among the black stones of any board reads
back as a black stone under indexing, and likewise for white; used at the
randomly built board below. -/
lemma stones_readback (b : Board) :
    (b.black_stones.all (fun p => decide (boardGet b p.1 p.2 = some .black)) = true) ∧
    (b.white_stones.all (fun p => decide (boardGet b p.1 p.2 = some .white)) = true) := by
  constructor <;>
  · rw [List.all_eq_true]
    intro p hp
    obtain ⟨i, hi, heq⟩ := List.mem_map.mp hp
    obtain ⟨_, hstone⟩ := List.mem_filter.mp hi
    subst heq
    simp only [decide_eq_true_eq] at hstone ⊢
    unfold boardGet
    have hid : i / b.size * b.size + i % b.size = i := by
      rw [Nat.mul_comm]
      exact Nat.div_add_mod i b.size
    rw [hid]
    exact hstone

/-- C8: on a board built by playing fifty alternating legality-checked random
moves on the 19x19 board, every pair in black_stones reads back as BLACK via
indexing, and every pair in white_stones reads back as WHITE. -/
theorem random_board_stones_readback (f : Nat → Nat) :
    ((make_random_board f 19).black_stones.all
        (fun p => decide (boardGet (make_random_board f 19) p.1 p.2 = some .black)) = true) ∧
    ((make_random_board f 19).white_stones.all
        (fun p => decide (boardGet (make_random_board f 19) p.1 p.2 = some .white)) = true) :=
  stones_readback (make_random_board f 19)

/-- C4: when the active policy returns a coordinate outside the current legal
set, the driver step fails with PolicyFault carrying that coordinate — it
neither applies the move nor coerces it to PASS — and PolicyFault is a
different error from IllegalMove. -/
theorem driver_policy_fault (pB pW : Policy) (fuel : Nat) (st : GameState)
    (passes : Nat) (pS : Option GameState) (pA : Option Coord) (hist : List MoveRec)
    (hp : passes < 2)
    (hbad : activePolicy pB pW st.color st pS pA ∉ st.board.legal_coords st.color) :
    driverLoop pB pW (fuel + 1) st passes pS pA hist =
      .error (.policyFault (activePolicy pB pW st.color st pS pA)) ∧
    (∀ x y : Coord, DriverError.policyFault x ≠ DriverError.illegalMove y) := by
  refine ⟨?_, fun x y h => DriverError.noConfusion h⟩
  simp only [driverLoop]
  rw [if_neg (by omega), if_neg hbad]

/-- Witness for driver_policy_fault: a policy that always returns the
out-of-board coordinate 400 faults immediately on the empty 9x9 board. -/
theorem driver_policy_fault_witness :
    driverLoop (fun _ _ _ => Coord.pos 400) (fun _ _ _ => Coord.pos 400) 1
        ⟨emptyBoard 9, .black⟩ 0 none none [] =
      .error (.policyFault (Coord.pos 400)) ∧
    (∀ x y : Coord, DriverError.policyFault x ≠ DriverError.illegalMove y) :=
  driver_policy_fault (fun _ _ _ => Coord.pos 400) (fun _ _ _ => Coord.pos 400) 0
    ⟨emptyBoard 9, .black⟩ 0 none none [] (by omega) (by decide)

/-- C5: a successful driver run returns the full ordered history: the public
play entry point returns exactly the records of the run, the history is
non-empty, its first record starts at the initial state, the state-before of
each record is the state-after of its predecessor, and the state-after of
the last record carries the final board. -/
theorem play_returns_history (pB pW : Policy) (size : Nat) (recs : List MoveRec)
    (fb : Board) (h1 : 1 ≤ size) (h25 : size ≤ 25)
    (hok : playGame pB pW size = .ok (recs, fb)) :
    play pB pW size = .ok recs ∧ recs ≠ [] ∧ chainedRecs recs ∧
    (∀ r ∈ recs.head?, r.2.1 = (⟨emptyBoard size, .black⟩ : GameState)) ∧
    (∃ r, recs.getLast? = some r ∧ r.2.2.board = fb) := by
  obtain ⟨hne, hch, hhd, hlast, _⟩ := playGame_spec pB pW size recs fb h1 hok
  refine ⟨?_, hne, hch, hhd, hlast⟩
  unfold play
  rw [hok]
  rfl

/-- Witness for play_returns_history: the two-pass game on the 1x1 board. -/
theorem play_returns_history_witness :
    ∃ recs fb, playGame passPolicy passPolicy 1 = .ok (recs, fb) ∧
      (play passPolicy passPolicy 1 = .ok recs ∧ recs ≠ [] ∧ chainedRecs recs ∧
        (∀ r ∈ recs.head?, r.2.1 = (⟨emptyBoard 1, .black⟩ : GameState)) ∧
        (∃ r, recs.getLast? = some r ∧ r.2.2.board = fb)) :=
  ⟨_, _, rfl, play_returns_history passPolicy passPolicy 1 _ _ (by omega) (by omega) rfl⟩

/-- C7: self-play between two random policies on the 9x9 board always ends in
a normally finished game: the driver reaches the finished state with no
error for every choice of pick functions, the history is non-empty, and the
final board has a finite official score, bounded in magnitude by the number
of board points. -/
theorem random_selfplay_terminates (pickB pickW : GameState → Nat) :
    ∃ recs fb, playGame (random_policy pickB) (random_policy pickW) 9 = .ok (recs, fb) ∧
      recs ≠ [] ∧ fb.official_score.natAbs ≤ 9 * 9 := by
  obtain ⟨recs, fb, hok⟩ :=
    driverLoop_no_err (random_policy pickB) (random_policy pickW)
      (random_policy_legal pickB) (random_policy_legal pickW)
      (maxGameMoves 9) ⟨emptyBoard 9, .black⟩ 0 none none []
  have hok2 : playGame (random_policy pickB) (random_policy pickW) 9 = .ok (recs, fb) := hok
  obtain ⟨hne, _, _, _, _⟩ := playGame_spec _ _ 9 recs fb (by omega) hok2
  have hsz : fb.size = 9 := by
    have hs := driverLoop_size (random_policy pickB) (random_policy pickW)
      (maxGameMoves 9) ⟨emptyBoard 9, .black⟩ 0 none none [] recs fb hok
    simpa [emptyBoard] using hs
  refine ⟨recs, fb, hok2, hne, ?_⟩
  have hb := official_score_abs_le fb
  rw [hsz] at hb
  exact hb

/-- C10: on every driver invocation the policy is handed a state object from
which both the current board and the color to move are readable: each
recorded action equals the active policy of the recorded color applied to
the recorded state-before, and the recorded state-after flips that color. -/
theorem policy_receives_state (pB pW : Policy) (size : Nat) (recs : List MoveRec)
    (fb : Board) (hok : playGame pB pW size = .ok (recs, fb)) :
    ∀ r ∈ recs, (∃ pS pA, r.1 = activePolicy pB pW r.2.1.color r.2.1 pS pA) ∧
      r.2.2.color = stone_other r.2.1.color := by
  unfold playGame at hok
  obtain ⟨tail, _, _, _, _, _, _, h7⟩ :=
    driverLoop_spec pB pW (maxGameMoves size) ⟨emptyBoard size, .black⟩ 0 none none []
      recs fb hok (by simp) (by simp) (by simp)
  intro r hr
  exact h7 r hr

/-- Witness for policy_receives_state: the first record of the two-pass game
on the 1x1 board. -/
theorem policy_receives_state_witness :
    ∃ recs fb, playGame passPolicy passPolicy 1 = .ok (recs, fb) ∧
      ∃ r ∈ recs,
        ((∃ pS pA, r.1 = activePolicy passPolicy passPolicy r.2.1.color r.2.1 pS pA) ∧
          r.2.2.color = stone_other r.2.1.color) := by
  refine ⟨_, _, rfl,
    ⟨(Coord.pass, ⟨emptyBoard 1, .black⟩, ⟨⟨1, [none], some [none]⟩, .white⟩), ?_, ?_⟩⟩
  · decide
  · exact policy_receives_state passPolicy passPolicy 1 _ _ rfl _ (by decide)

end PachiPy
